import Mathlib

/-!
Verification of the `binary-ensamble` encoder (`src/encode/mod.rs`).

The Rust sources are shallowly embedded: machine integers (`u8`, `u16`, `u32`)
become `Nat` with explicit `% 2 ^ w` truncation at every point where the Rust
code performs a narrowing cast or where wrap-around arithmetic is possible;
byte buffers (`Vec<u8>`) become `List Nat`; fallible operations (`unwrap` on a
possibly-empty maximum, I/O and format errors) become `Option`/`Except`.
All definitions are structurally recursive (loops that consume a variable
number of bits per step use an explicit fuel argument that provably dominates
the iteration count), so every definition evaluates by kernel reduction.
-/

namespace BinaryEnsemble

/-! ### Generic bitstream vocabulary (used to state the spec-side properties) -/

/-- Value of a big-endian (MSB-first) list of bits. -/
def natOfBits (bs : List Bool) : Nat :=
  bs.foldl (fun a b => 2 * a + b.toNat) 0

/-- The low `w` bits of `v`, most significant bit first. -/
def toBits : Nat → Nat → List Bool
  | 0, _ => []
  | w + 1, v => v.testBit w :: toBits w v

/-- Concatenation of `f a` over the elements of a list, in order. -/
def concatMap (f : α → List β) : List α → List β
  | [] => []
  | a :: as => f a ++ concatMap f as

/-- Bits contributed by one run: `valueBits` bits of the value (MSB first)
immediately followed by `lengthBits` bits of the length. -/
def runBits (valueBits lengthBits : Nat) (r : Nat × Nat) : List Bool :=
  toBits valueBits r.1 ++ toBits lengthBits r.2

/-- MSB-first packing of a bitstream into bytes; a final partial byte keeps its
bits in the high positions and is zero-padded in its low bits. -/
def packBitsMSB : List Bool → List Nat
  | [] => []
  | b0 :: b1 :: b2 :: b3 :: b4 :: b5 :: b6 :: b7 :: rest =>
      natOfBits [b0, b1, b2, b3, b4, b5, b6, b7] :: packBitsMSB rest
  | bs => [natOfBits (bs ++ List.replicate (8 - bs.length) false)]

/-- The complete bytes of a bitstream (every full 8-bit chunk, in order). -/
def fullBytes : List Bool → List Nat
  | b0 :: b1 :: b2 :: b3 :: b4 :: b5 :: b6 :: b7 :: rest =>
      natOfBits [b0, b1, b2, b3, b4, b5, b6, b7] :: fullBytes rest
  | _ => []

/-- The trailing bits of a bitstream that do not fill a whole byte. -/
def leftover : List Bool → List Bool
  | _ :: _ :: _ :: _ :: _ :: _ :: _ :: _ :: rest => leftover rest
  | bs => bs

/-- Number of bits in the binary representation of `x` (`0` maps to `0`);
fuel-based so that it reduces by kernel computation.  This is the value of
`16 - x.leading_zeros()` computed by the Rust code for a `u16` value `x`. -/
def bitsNeededF : Nat → Nat → Nat
  | 0, _ => 0
  | fuel + 1, x => if x = 0 then 0 else bitsNeededF fuel (x / 2) + 1

/-- Number of bits in the binary representation of `x`. -/
def bitsNeeded (x : Nat) : Nat := bitsNeededF x x

/-! ### Embedding of `src/encode/mod.rs` -/

/-- The 17 ASCII bytes of `"STANDARD BEN FILE"`. -/
def standardBenFile : List Nat :=
  [83, 84, 65, 78, 68, 65, 82, 68, 32, 66, 69, 78, 32, 70, 73, 76, 69]

/-- Big-endian bytes of a `u32` (Rust `u32::to_be_bytes`). -/
def be32 (n : Nat) : List Nat :=
  [n / 2 ^ 24 % 256, n / 2 ^ 16 % 256, n / 2 ^ 8 % 256, n % 256]

/-- The inner `while n_bits_left >= 8` loop of `encode_ben_vec_from_rle`
(lines 200–205 and 210–215): repeatedly emit the top 8 bits of the
accumulator as a byte and mask the accumulator down to the remaining low
bits (`new_val & !(0xFFFFFFFF << n_bits_left)`, i.e. `% 2 ^ n_bits_left`).
The fuel argument bounds the iteration count: each pass removes 8 bits, so
`n_bits_left` passes always suffice. -/
def emitBytesF : Nat → Nat → Nat → List Nat → Nat × Nat × List Nat
  | 0, new_val, n_bits_left, out => (new_val, n_bits_left, out)
  | fuel + 1, new_val, n_bits_left, out =>
      if 8 ≤ n_bits_left then
        emitBytesF fuel (new_val % 2 ^ (n_bits_left - 8)) (n_bits_left - 8)
          (out ++ [new_val / 2 ^ (n_bits_left - 8) % 256])
      else (new_val, n_bits_left, out)

/-- Runs the byte-emission loop on an accumulator holding `n_bits_left` bits. -/
def emitBytes (new_val n_bits_left : Nat) (out : List Nat) : Nat × Nat × List Nat :=
  emitBytesF n_bits_left new_val n_bits_left out

/-- Body of the `for (val, len) in rle_vec` loop of `encode_ben_vec_from_rle`
(lines 193–219).  State is `(remainder, remainder_bits, output bytes so far)`.
The accumulator is a `u32`, hence the `% 2 ^ 32` after each shift-or. -/
def packRun (max_val_bits max_len_bits : Nat) (st : Nat × Nat × List Nat)
    (r : Nat × Nat) : Nat × Nat × List Nat :=
  let nv1 := ((st.1 <<< max_val_bits) ||| r.1) % 2 ^ 32
  let s1 := emitBytes nv1 (st.2.1 + max_val_bits) st.2.2
  let nv2 := ((s1.1 <<< max_len_bits) ||| r.2) % 2 ^ 32
  emitBytes nv2 (s1.2.1 + max_len_bits) s1.2.2

/-- Maximum of the run values (`max_by_key(|x| x.0)` extracts an element whose
first component is maximal; seeding the fold with `0` gives the same value on a
non-empty list of naturals). -/
def maxFst (rle : List (Nat × Nat)) : Nat :=
  rle.foldl (fun m r => max m r.1) 0

/-- Maximum of the run lengths. -/
def maxSnd (rle : List (Nat × Nat)) : Nat :=
  rle.foldl (fun m r => max m r.2) 0

/-- Embedding of `encode_ben_vec_from_rle` (lines 172–227).  Returns `none`
exactly when the run list is empty, where the Rust code panics on
`max_by_key(...).unwrap()`.  Every run is a pair of `u16` values, so theorems
about this function carry the hypothesis that entries are `< 2 ^ 16`. -/
def encode_ben_vec_from_rle (rle_vec : List (Nat × Nat)) : Option (List Nat) :=
  match rle_vec with
  | [] => none
  | _ :: _ =>
    let max_val := maxFst rle_vec
    let max_len := maxSnd rle_vec
    let max_val_bits := max (bitsNeeded max_val) 1
    let max_len_bits := bitsNeeded max_len
    let assign_bits := max_val_bits + max_len_bits
    let tot := assign_bits * (rle_vec.length % 2 ^ 32) % 2 ^ 32
    let n_bytes := if tot % 8 = 0 then tot / 8 else tot / 8 + 1
    let st := rle_vec.foldl (packRun max_val_bits max_len_bits) (0, 0, [])
    let payload :=
      if 0 < st.2.1 then st.2.2 ++ [(st.1 <<< (8 - st.2.1)) % 256] else st.2.2
    some ([max_val_bits % 256, max_len_bits % 256] ++ be32 n_bytes ++ payload)

/-- One ben32 record: the big-endian bytes of the `u32`
`(value << 16) | count` (lines 65–66 and 75–76). -/
def ben32Word (value count : Nat) : List Nat :=
  be32 (((value <<< 16) ||| count) % 2 ^ 32)

/-- The `for assignment in assign_vec` loop of `encode_ben_32_line`
(lines 54–80) after the first element has initialised
`(prev_assign, count)`.  `assign` and `count` are `u16`s, hence the
`% 2 ^ 16` for the `as u16` cast and for the `count += 1` increment. -/
def encodeBen32Loop : List Nat → Nat → Nat → List Nat
  | [], prev_assign, count =>
      (if 0 < count then ben32Word prev_assign count else []) ++ [0, 0, 0, 0]
  | a :: rest, prev_assign, count =>
      let assign := a % 2 ^ 16
      if assign = prev_assign then
        encodeBen32Loop rest prev_assign ((count + 1) % 2 ^ 16)
      else
        ben32Word prev_assign count ++ encodeBen32Loop rest assign 1

/-- Embedding of `encode_ben_32_line` (lines 46–81), applied to the parsed
`assignment` array of the input JSON object (a list of non-negative
integers; each is narrowed by `as u64 as u16`, i.e. `% 2 ^ 16`). -/
def encode_ben_32_line : List Nat → List Nat
  | [] => [0, 0, 0, 0]
  | a :: rest => encodeBen32Loop rest (a % 2 ^ 16) 1

/-- Modelled from the spec: `assign_to_rle` lives in `src/utils`, which is not
among the provided sources.  Spec §4.1: scan left to right merging
equal-valued consecutive elements into a run; the first element starts the
first run; a run closes when its value changes; the final run closes at the
end of the vector.  This is the inner loop carrying the current run. -/
def rleLoop : List Nat → Nat → Nat → List (Nat × Nat)
  | [], v, c => [(v, c)]
  | a :: rest, v, c =>
      if a = v then rleLoop rest v (c + 1) else (v, c) :: rleLoop rest a 1

/-- Modelled from the spec: run-length transform of an assignment vector
(spec §4.1); an empty vector produces an empty run sequence. -/
def assign_to_rle : List Nat → List (Nat × Nat)
  | [] => []
  | a :: rest => rleLoop rest a 1

/-- Per-line outputs of `jsonl_encode_ben` (lines 277–294).  A line is
represented by its parsed `assignment` field: `none` when the JSON object has
no `assignment` array (the `if let Some(...)` at line 283 then skips the
line), `some av` otherwise.  Values are narrowed by `as u64 as u16`
(`% 2 ^ 16`) before the run-length transform.  The result is `none` when some
line makes `encode_ben_vec_from_rle` panic (empty assignment array). -/
def benLineBlocks : List (Option (List Nat)) → Option (List Nat)
  | [] => some []
  | none :: rest => benLineBlocks rest
  | some av :: rest =>
      match encode_ben_vec_from_rle (assign_to_rle (av.map (fun x => x % 2 ^ 16))),
            benLineBlocks rest with
      | some block, some blocks => some (block ++ blocks)
      | _, _ => none

/-- Embedding of `jsonl_encode_ben` (lines 274–298): the magic header
followed by one BEN block per line that carries an `assignment` array. -/
def jsonl_encode_ben (lines : List (Option (List Nat))) : Option (List Nat) :=
  (benLineBlocks lines).map (fun blocks => standardBenFile ++ blocks)

/-- Error kinds of `std::io::Error` relevant to `encode_ben_to_xben`:
`InvalidData` (the `FormatError` of the spec) and `UnexpectedEof`
(`read_exact` on fewer than 17 bytes). -/
inductive IoErrorKind where
  | invalidData : IoErrorKind
  | unexpectedEof : IoErrorKind
  deriving DecidableEq, Repr

/-- Embedding of `encode_ben_to_xben` (lines 311–336).  The callee
`ben_to_ben32_lines` (module `translate`, not among the provided sources) is
passed as a parameter, and the LZMA2 compressor is opaque, so the result
models the byte stream fed to the compressor.  An `Except.error` result means
the function returns early and `writer.write_all` is never executed, i.e. no
output is written. -/
def encode_ben_to_xben (ben_to_ben32_lines : List Nat → Except IoErrorKind (List Nat))
    (input : List Nat) : Except IoErrorKind (List Nat) :=
  if input.length < 17 then Except.error IoErrorKind.unexpectedEof
  else if input.take 17 ≠ standardBenFile then Except.error IoErrorKind.invalidData
  else
    match ben_to_ben32_lines (input.drop 17) with
    | Except.ok ben32 => Except.ok (standardBenFile ++ ben32)
    | Except.error e => Except.error e

/-! ### Bitstream lemmas -/

lemma natOfBits_foldl (bs : List Bool) :
    ∀ a : Nat, bs.foldl (fun a b => 2 * a + b.toNat) a =
      a * 2 ^ bs.length + natOfBits bs := by
  induction bs with
  | nil => intro a; simp [natOfBits]
  | cons b bs ih =>
    intro a
    rw [natOfBits]
    simp only [List.foldl_cons, List.length_cons]
    rw [ih (2 * a + b.toNat), ih (2 * 0 + b.toNat)]
    ring

lemma natOfBits_cons (b : Bool) (bs : List Bool) :
    natOfBits (b :: bs) = b.toNat * 2 ^ bs.length + natOfBits bs := by
  rw [natOfBits]
  simp only [List.foldl_cons]
  rw [natOfBits_foldl]
  ring

lemma natOfBits_append (A B : List Bool) :
    natOfBits (A ++ B) = natOfBits A * 2 ^ B.length + natOfBits B := by
  rw [natOfBits, List.foldl_append, natOfBits_foldl]
  rfl

lemma natOfBits_lt (bs : List Bool) : natOfBits bs < 2 ^ bs.length := by
  induction bs with
  | nil => simp [natOfBits]
  | cons b bs ih =>
    rw [natOfBits_cons]
    have hb : b.toNat ≤ 1 := Bool.toNat_le b
    have : (2 : Nat) ^ (b :: bs).length = 2 ^ bs.length + 2 ^ bs.length := by
      simp [List.length_cons, Nat.pow_succ]
      ring
    rw [this]
    have := Nat.pow_pos (n := bs.length) (by omega : 0 < 2)
    nlinarith

lemma natOfBits_replicate_false (k : Nat) :
    natOfBits (List.replicate k false) = 0 := by
  induction k with
  | zero => simp [natOfBits]
  | succ k ih => rw [List.replicate_succ, natOfBits_cons]; simp [ih]

lemma length_toBits (w v : Nat) : (toBits w v).length = w := by
  induction w generalizing v with
  | zero => simp [toBits]
  | succ w ih => simp [toBits, ih]

lemma natOfBits_toBits (w v : Nat) : natOfBits (toBits w v) = v % 2 ^ w := by
  induction w generalizing v with
  | zero => simp [toBits, natOfBits, Nat.mod_one]
  | succ w ih =>
    rw [toBits, natOfBits_cons, length_toBits, ih]
    have htb : (v.testBit w).toNat = v / 2 ^ w % 2 := by
      rw [Nat.testBit_to_div_mod]
      rcases Nat.mod_two_eq_zero_or_one (v / 2 ^ w) with h | h <;> simp [h]
    rw [htb]
    have : v % 2 ^ (w + 1) = v % (2 ^ w * 2) := by rw [Nat.pow_succ]
    rw [this, Nat.mod_mul]
    ring

lemma natOfBits_toBits_of_lt {w v : Nat} (h : v < 2 ^ w) :
    natOfBits (toBits w v) = v := by
  rw [natOfBits_toBits, Nat.mod_eq_of_lt h]

lemma mul_two_pow_lor_eq_add (k : Nat) :
    ∀ a b : Nat, b < 2 ^ k → (a * 2 ^ k) ||| b = a * 2 ^ k + b := by
  induction k with
  | zero =>
    intro a b hb
    have hb0 : b = 0 := by omega
    subst hb0; simp
  | succ k ih =>
    intro a b hb
    have hd : Nat.bit (Nat.bodd b) (Nat.div2 b) = b := Nat.bit_decomp b
    have h2 : Nat.div2 b < 2 ^ k := by
      rw [Nat.div2_val]
      rw [Nat.pow_succ] at hb
      omega
    have hshape : a * 2 ^ (k + 1) = Nat.bit false (a * 2 ^ k) := by
      rw [Nat.bit_val, Nat.pow_succ, ← Nat.mul_assoc]
      simp [Nat.mul_comm]
    calc a * 2 ^ (k + 1) ||| b
        = Nat.bit false (a * 2 ^ k) ||| Nat.bit (Nat.bodd b) (Nat.div2 b) := by
          rw [hd, hshape]
      _ = Nat.bit (Nat.bodd b) ((a * 2 ^ k) ||| Nat.div2 b) := by
          rw [Nat.lor_bit]; simp
      _ = Nat.bit (Nat.bodd b) (a * 2 ^ k + Nat.div2 b) := by rw [ih _ _ h2]
      _ = a * 2 ^ (k + 1) + b := by
          have hb2 : (Nat.bodd b).toNat + 2 * Nat.div2 b = b := Nat.bodd_add_div2 b
          rw [Nat.bit_val, Nat.pow_succ, ← Nat.mul_assoc]
          omega

lemma shl_lor_eq_add (a b k : Nat) (hb : b < 2 ^ k) :
    (a <<< k) ||| b = a * 2 ^ k + b := by
  rw [Nat.shiftLeft_eq]
  exact mul_two_pow_lor_eq_add k a b hb

/-! ### Chunking lemmas for `fullBytes`, `leftover`, `packBitsMSB` -/

lemma exists_cons8 {M : List Bool} (h : 8 ≤ M.length) :
    ∃ b0 b1 b2 b3 b4 b5 b6 b7 rest,
      M = b0 :: b1 :: b2 :: b3 :: b4 :: b5 :: b6 :: b7 :: rest := by
  rcases M with _ | ⟨b0, M⟩; · simp at h
  rcases M with _ | ⟨b1, M⟩; · simp at h
  rcases M with _ | ⟨b2, M⟩; · simp at h
  rcases M with _ | ⟨b3, M⟩; · simp at h
  rcases M with _ | ⟨b4, M⟩; · simp at h
  rcases M with _ | ⟨b5, M⟩; · simp at h
  rcases M with _ | ⟨b6, M⟩; · simp at h
  rcases M with _ | ⟨b7, M⟩; · simp at h
  exact ⟨b0, b1, b2, b3, b4, b5, b6, b7, M, rfl⟩

lemma length_lt_of_no_cons8 {bs : List Bool}
    (h : ∀ (b0 b1 b2 b3 b4 b5 b6 b7 : Bool) (rest : List Bool),
      bs = b0 :: b1 :: b2 :: b3 :: b4 :: b5 :: b6 :: b7 :: rest → False) :
    bs.length < 8 := by
  by_contra hlen
  push_neg at hlen
  obtain ⟨b0, b1, b2, b3, b4, b5, b6, b7, rest, rfl⟩ := exists_cons8 hlen
  exact h _ _ _ _ _ _ _ _ _ rfl

lemma leftover_cons8 (b0 b1 b2 b3 b4 b5 b6 b7 : Bool) (rest : List Bool) :
    leftover (b0 :: b1 :: b2 :: b3 :: b4 :: b5 :: b6 :: b7 :: rest) =
      leftover rest := rfl

lemma fullBytes_cons8 (b0 b1 b2 b3 b4 b5 b6 b7 : Bool) (rest : List Bool) :
    fullBytes (b0 :: b1 :: b2 :: b3 :: b4 :: b5 :: b6 :: b7 :: rest) =
      natOfBits [b0, b1, b2, b3, b4, b5, b6, b7] :: fullBytes rest := rfl

lemma leftover_eq_self {M : List Bool} (h : M.length < 8) : leftover M = M := by
  rcases M with _ | ⟨b0, M⟩; · rfl
  rcases M with _ | ⟨b1, M⟩; · rfl
  rcases M with _ | ⟨b2, M⟩; · rfl
  rcases M with _ | ⟨b3, M⟩; · rfl
  rcases M with _ | ⟨b4, M⟩; · rfl
  rcases M with _ | ⟨b5, M⟩; · rfl
  rcases M with _ | ⟨b6, M⟩; · rfl
  rcases M with _ | ⟨b7, M⟩; · rfl
  simp at h; omega

lemma fullBytes_short {M : List Bool} (h : M.length < 8) : fullBytes M = [] := by
  rcases M with _ | ⟨b0, M⟩; · rfl
  rcases M with _ | ⟨b1, M⟩; · rfl
  rcases M with _ | ⟨b2, M⟩; · rfl
  rcases M with _ | ⟨b3, M⟩; · rfl
  rcases M with _ | ⟨b4, M⟩; · rfl
  rcases M with _ | ⟨b5, M⟩; · rfl
  rcases M with _ | ⟨b6, M⟩; · rfl
  rcases M with _ | ⟨b7, M⟩; · rfl
  simp at h; omega

lemma leftover_length_lt (M : List Bool) : (leftover M).length < 8 := by
  induction M using leftover.induct with
  | case1 b0 b1 b2 b3 b4 b5 b6 b7 rest ih => simpa [leftover_cons8] using ih
  | case2 bs h =>
    rw [leftover_eq_self (length_lt_of_no_cons8 h)]
    exact length_lt_of_no_cons8 h

lemma leftover_append (A C : List Bool) :
    leftover (A ++ C) = leftover (leftover A ++ C) := by
  induction A using leftover.induct with
  | case1 b0 b1 b2 b3 b4 b5 b6 b7 rest ih =>
    simpa only [List.cons_append, leftover_cons8] using ih
  | case2 bs h => rw [leftover_eq_self (length_lt_of_no_cons8 h)]

lemma fullBytes_append (A C : List Bool) :
    fullBytes (A ++ C) = fullBytes A ++ fullBytes (leftover A ++ C) := by
  induction A using leftover.induct with
  | case1 b0 b1 b2 b3 b4 b5 b6 b7 rest ih =>
    simp only [List.cons_append, fullBytes_cons8, leftover_cons8]
    rw [ih]
  | case2 bs h =>
    rw [leftover_eq_self (length_lt_of_no_cons8 h),
      fullBytes_short (length_lt_of_no_cons8 h)]
    simp

/-! ### The byte-emission loop implements bitstream chunking -/

lemma emitBytesF_spec :
    ∀ (fuel : Nat) (M : List Bool) (out : List Nat), M.length ≤ fuel →
      emitBytesF fuel (natOfBits M) M.length out =
        (natOfBits (leftover M), (leftover M).length, out ++ fullBytes M) := by
  intro fuel
  induction fuel with
  | zero =>
    intro M out h
    have hM : M = [] := List.length_eq_zero.mp (Nat.le_zero.mp h)
    subst hM
    simp [emitBytesF, leftover, fullBytes, natOfBits]
  | succ fuel ih =>
    intro M out h
    by_cases h8 : 8 ≤ M.length
    · obtain ⟨b0, b1, b2, b3, b4, b5, b6, b7, rest, rfl⟩ := exists_cons8 h8
      have hsplit :
          natOfBits (b0 :: b1 :: b2 :: b3 :: b4 :: b5 :: b6 :: b7 :: rest) =
            natOfBits [b0, b1, b2, b3, b4, b5, b6, b7] * 2 ^ rest.length +
              natOfBits rest := by
        simpa using
          natOfBits_append [b0, b1, b2, b3, b4, b5, b6, b7] rest
      have hlen :
          (b0 :: b1 :: b2 :: b3 :: b4 :: b5 :: b6 :: b7 :: rest).length =
            8 + rest.length := by
        simp; omega
      have hrlt : natOfBits rest < 2 ^ rest.length := natOfBits_lt rest
      have hblt : natOfBits [b0, b1, b2, b3, b4, b5, b6, b7] < 256 := by
        have := natOfBits_lt [b0, b1, b2, b3, b4, b5, b6, b7]
        simpa using this
      rw [emitBytesF, hlen, if_pos (by omega : 8 ≤ 8 + rest.length)]
      have hd8 : 8 + rest.length - 8 = rest.length := by omega
      rw [hd8, hsplit]
      have hdiv :
          (natOfBits [b0, b1, b2, b3, b4, b5, b6, b7] * 2 ^ rest.length +
            natOfBits rest) / 2 ^ rest.length =
            natOfBits [b0, b1, b2, b3, b4, b5, b6, b7] := by
        rw [Nat.mul_comm, Nat.mul_add_div (Nat.pow_pos (by omega))]
        rw [Nat.div_eq_of_lt hrlt]
        omega
      have hmod :
          (natOfBits [b0, b1, b2, b3, b4, b5, b6, b7] * 2 ^ rest.length +
            natOfBits rest) % 2 ^ rest.length = natOfBits rest := by
        rw [Nat.mul_comm, Nat.mul_add_mod, Nat.mod_eq_of_lt hrlt]
      rw [hdiv, hmod, Nat.mod_eq_of_lt hblt]
      have hrest : rest.length ≤ fuel := by
        rw [hlen] at h; omega
      have := ih rest (out ++ [natOfBits [b0, b1, b2, b3, b4, b5, b6, b7]]) hrest
      rw [this, leftover_cons8, fullBytes_cons8]
      simp
    · push_neg at h8
      rw [emitBytesF, if_neg (by omega)]
      rw [leftover_eq_self h8, fullBytes_short h8, List.append_nil]

lemma emitBytes_spec (M : List Bool) (out : List Nat) :
    emitBytes (natOfBits M) M.length out =
      (natOfBits (leftover M), (leftover M).length, out ++ fullBytes M) :=
  emitBytesF_spec M.length M out (Nat.le_refl _)

/-! ### One loop iteration appends one run's bits -/

lemma packRun_spec (vb lb : Nat) (hvb : vb ≤ 16) (hlb : lb ≤ 16)
    (L : List Bool) (hL : L.length < 8) (out : List Nat) (r : Nat × Nat)
    (hr1 : r.1 < 2 ^ vb) (hr2 : r.2 < 2 ^ lb) :
    packRun vb lb (natOfBits L, L.length, out) r =
      (natOfBits (leftover (L ++ runBits vb lb r)),
       (leftover (L ++ runBits vb lb r)).length,
       out ++ fullBytes (L ++ runBits vb lb r)) := by
  have hM1len : (L ++ toBits vb r.1).length = L.length + vb := by
    simp [length_toBits]
  have hM1val : natOfBits L * 2 ^ vb + r.1 = natOfBits (L ++ toBits vb r.1) := by
    rw [natOfBits_append, length_toBits, natOfBits_toBits_of_lt hr1]
  have hM1lt : natOfBits (L ++ toBits vb r.1) < 2 ^ 32 := by
    have h := natOfBits_lt (L ++ toBits vb r.1)
    have h2 : (2 : Nat) ^ (L ++ toBits vb r.1).length ≤ 2 ^ 32 :=
      Nat.pow_le_pow_right (by omega) (by omega)
    omega
  have e1 : ((natOfBits L <<< vb) ||| r.1) % 2 ^ 32 =
      natOfBits (L ++ toBits vb r.1) := by
    rw [shl_lor_eq_add _ _ _ hr1, hM1val, Nat.mod_eq_of_lt hM1lt]
  have hL2 : (leftover (L ++ toBits vb r.1)).length < 8 :=
    leftover_length_lt (L ++ toBits vb r.1)
  have hM2len : (leftover (L ++ toBits vb r.1) ++ toBits lb r.2).length =
      (leftover (L ++ toBits vb r.1)).length + lb := by
    simp [length_toBits]
  have hM2val : natOfBits (leftover (L ++ toBits vb r.1)) * 2 ^ lb + r.2 =
      natOfBits (leftover (L ++ toBits vb r.1) ++ toBits lb r.2) := by
    rw [natOfBits_append, length_toBits, natOfBits_toBits_of_lt hr2]
  have hM2lt : natOfBits (leftover (L ++ toBits vb r.1) ++ toBits lb r.2) < 2 ^ 32 := by
    have h := natOfBits_lt (leftover (L ++ toBits vb r.1) ++ toBits lb r.2)
    have h2 : (2 : Nat) ^ (leftover (L ++ toBits vb r.1) ++ toBits lb r.2).length ≤ 2 ^ 32 :=
      Nat.pow_le_pow_right (by omega) (by omega)
    omega
  have e2 : ((natOfBits (leftover (L ++ toBits vb r.1)) <<< lb) ||| r.2) % 2 ^ 32 =
      natOfBits (leftover (L ++ toBits vb r.1) ++ toBits lb r.2) := by
    rw [shl_lor_eq_add _ _ _ hr2, hM2val, Nat.mod_eq_of_lt hM2lt]
  have hsplit : L ++ runBits vb lb r = (L ++ toBits vb r.1) ++ toBits lb r.2 := by
    simp [runBits, List.append_assoc]
  simp only [packRun, e1]
  rw [← hM1len, emitBytes_spec (L ++ toBits vb r.1) out]
  simp only [e2]
  rw [← hM2len, emitBytes_spec (leftover (L ++ toBits vb r.1) ++ toBits lb r.2)]
  rw [hsplit, leftover_append (L ++ toBits vb r.1) (toBits lb r.2),
    fullBytes_append (L ++ toBits vb r.1) (toBits lb r.2)]
  simp [List.append_assoc]

lemma foldl_packRun (vb lb : Nat) (hvb : vb ≤ 16) (hlb : lb ≤ 16)
    (runs : List (Nat × Nat)) :
    (∀ r ∈ runs, r.1 < 2 ^ vb ∧ r.2 < 2 ^ lb) →
    ∀ (L : List Bool), L.length < 8 → ∀ (out : List Nat),
      runs.foldl (packRun vb lb) (natOfBits L, L.length, out) =
        (natOfBits (leftover (L ++ concatMap (runBits vb lb) runs)),
         (leftover (L ++ concatMap (runBits vb lb) runs)).length,
         out ++ fullBytes (L ++ concatMap (runBits vb lb) runs)) := by
  induction runs with
  | nil =>
    intro _ L hL out
    simp [concatMap, leftover_eq_self hL, fullBytes_short hL]
  | cons r rs ih =>
    intro hmem L hL out
    have hr := hmem r (List.mem_cons_self r rs)
    rw [List.foldl_cons,
      packRun_spec vb lb hvb hlb L hL out r hr.1 hr.2,
      ih (fun x hx => hmem x (List.mem_cons_of_mem _ hx))
        (leftover (L ++ runBits vb lb r)) (leftover_length_lt _) _]
    have hA : L ++ concatMap (runBits vb lb) (r :: rs) =
        (L ++ runBits vb lb r) ++ concatMap (runBits vb lb) rs := by
      simp [concatMap, List.append_assoc]
    rw [hA, leftover_append (L ++ runBits vb lb r),
      fullBytes_append (L ++ runBits vb lb r)]
    simp [List.append_assoc]

/-! ### `packBitsMSB` versus `fullBytes`/`leftover` -/

lemma packBitsMSB_cons8 (b0 b1 b2 b3 b4 b5 b6 b7 : Bool) (rest : List Bool) :
    packBitsMSB (b0 :: b1 :: b2 :: b3 :: b4 :: b5 :: b6 :: b7 :: rest) =
      natOfBits [b0, b1, b2, b3, b4, b5, b6, b7] :: packBitsMSB rest := rfl

lemma packBitsMSB_short {M : List Bool} (h0 : M ≠ []) (h : M.length < 8) :
    packBitsMSB M = [natOfBits (M ++ List.replicate (8 - M.length) false)] := by
  rcases M with _ | ⟨b0, M⟩; · exact absurd rfl h0
  rcases M with _ | ⟨b1, M⟩; · rfl
  rcases M with _ | ⟨b2, M⟩; · rfl
  rcases M with _ | ⟨b3, M⟩; · rfl
  rcases M with _ | ⟨b4, M⟩; · rfl
  rcases M with _ | ⟨b5, M⟩; · rfl
  rcases M with _ | ⟨b6, M⟩; · rfl
  rcases M with _ | ⟨b7, M⟩; · rfl
  simp at h; omega

lemma packBitsMSB_eq (B : List Bool) :
    packBitsMSB B = fullBytes B ++
      (if leftover B = [] then []
       else [natOfBits (leftover B ++
          List.replicate (8 - (leftover B).length) false)]) := by
  induction B using leftover.induct with
  | case1 b0 b1 b2 b3 b4 b5 b6 b7 rest ih =>
    rw [packBitsMSB_cons8, fullBytes_cons8, leftover_cons8, ih, List.cons_append]
  | case2 bs h =>
    have hlen := length_lt_of_no_cons8 h
    rw [leftover_eq_self hlen, fullBytes_short hlen]
    rcases hbs : bs with _ | ⟨b, bs'⟩
    · simp [packBitsMSB]
    · rw [← hbs, packBitsMSB_short (by rw [hbs]; simp) hlen]
      rw [if_neg (by rw [hbs]; simp)]
      simp

lemma packBitsMSB_length (B : List Bool) :
    (packBitsMSB B).length = (B.length + 7) / 8 := by
  induction B using leftover.induct with
  | case1 b0 b1 b2 b3 b4 b5 b6 b7 rest ih =>
    rw [packBitsMSB_cons8]
    simp only [List.length_cons, ih]
    omega
  | case2 bs h =>
    have hlen := length_lt_of_no_cons8 h
    rcases hbs : bs with _ | ⟨b, bs'⟩
    · simp [packBitsMSB]
    · rw [← hbs, packBitsMSB_short (by rw [hbs]; simp) hlen]
      have h1 : 0 < bs.length := by rw [hbs]; simp
      simp only [List.length_singleton]
      omega

/-! ### `bitsNeeded` is the minimal representing width -/

lemma bitsNeededF_le_iff :
    ∀ (fuel x : Nat), x ≤ fuel → ∀ k, (bitsNeededF fuel x ≤ k ↔ x < 2 ^ k) := by
  intro fuel
  induction fuel with
  | zero =>
    intro x hx k
    have hx0 : x = 0 := by omega
    subst hx0
    simp [bitsNeededF]
  | succ fuel ih =>
    intro x hx k
    rw [bitsNeededF]
    by_cases hx0 : x = 0
    · subst hx0
      simp
    · rw [if_neg hx0]
      cases k with
      | zero =>
        simp only [Nat.pow_zero]
        omega
      | succ k =>
        have hdiv : x / 2 ≤ fuel := by omega
        have hih := ih (x / 2) hdiv k
        rw [Nat.pow_succ]
        constructor
        · intro h
          have : bitsNeededF fuel (x / 2) ≤ k := by omega
          have := hih.mp this
          omega
        · intro h
          have hx2 : x / 2 < 2 ^ k := by omega
          have := hih.mpr hx2
          omega

lemma bitsNeeded_le_iff (x k : Nat) : bitsNeeded x ≤ k ↔ x < 2 ^ k :=
  bitsNeededF_le_iff x x (Nat.le_refl x) k

lemma lt_two_pow_bitsNeeded (x : Nat) : x < 2 ^ bitsNeeded x :=
  (bitsNeeded_le_iff x (bitsNeeded x)).mp (Nat.le_refl _)

/-! ### Fold-maximum lemmas (for `max_by_key`) -/

lemma foldl_max_le_iff (f : α → Nat) (l : List α) :
    ∀ (a b : Nat),
      l.foldl (fun m x => max m (f x)) a ≤ b ↔ a ≤ b ∧ ∀ x ∈ l, f x ≤ b := by
  induction l with
  | nil => intro a b; simp
  | cons y l ih =>
    intro a b
    rw [List.foldl_cons, ih]
    simp only [Nat.max_le, List.mem_cons]
    constructor
    · rintro ⟨⟨h1, h2⟩, h3⟩
      refine ⟨h1, ?_⟩
      intro x hx
      rcases hx with rfl | hx
      · exact h2
      · exact h3 x hx
    · rintro ⟨h1, h2⟩
      exact ⟨⟨h1, h2 y (Or.inl rfl)⟩, fun x hx => h2 x (Or.inr hx)⟩

lemma foldl_max_attained (f : α → Nat) (l : List α) :
    ∀ a : Nat, l.foldl (fun m x => max m (f x)) a = a ∨
      ∃ x ∈ l, l.foldl (fun m x => max m (f x)) a = f x := by
  induction l with
  | nil => intro a; left; rfl
  | cons y l ih =>
    intro a
    rw [List.foldl_cons]
    rcases ih (max a (f y)) with h | ⟨x, hx, hfx⟩
    · rw [h]
      rcases Nat.le_total a (f y) with hle | hle
      · right
        exact ⟨y, List.mem_cons_self y l, Nat.max_eq_right hle⟩
      · left
        exact Nat.max_eq_left hle
    · right
      exact ⟨x, List.mem_cons_of_mem _ hx, hfx⟩

lemma le_maxFst {rle : List (Nat × Nat)} {r : Nat × Nat} (h : r ∈ rle) :
    r.1 ≤ maxFst rle := by
  have hle := (foldl_max_le_iff Prod.fst rle 0 (maxFst rle)).mp (Nat.le_refl _)
  exact hle.2 r h

lemma le_maxSnd {rle : List (Nat × Nat)} {r : Nat × Nat} (h : r ∈ rle) :
    r.2 ≤ maxSnd rle := by
  have hle := (foldl_max_le_iff Prod.snd rle 0 (maxSnd rle)).mp (Nat.le_refl _)
  exact hle.2 r h

lemma maxFst_lt {rle : List (Nat × Nat)} {n : Nat} (hn : 0 < n)
    (h : ∀ r ∈ rle, r.1 < n) : maxFst rle < n := by
  have : maxFst rle ≤ n - 1 :=
    (foldl_max_le_iff Prod.fst rle 0 (n - 1)).mpr
      ⟨by omega, fun x hx => by have := h x hx; omega⟩
  omega

lemma maxSnd_lt {rle : List (Nat × Nat)} {n : Nat} (hn : 0 < n)
    (h : ∀ r ∈ rle, r.2 < n) : maxSnd rle < n := by
  have : maxSnd rle ≤ n - 1 :=
    (foldl_max_le_iff Prod.snd rle 0 (n - 1)).mpr
      ⟨by omega, fun x hx => by have := h x hx; omega⟩
  omega

lemma maxFst_mem {rle : List (Nat × Nat)} (h : rle ≠ []) :
    maxFst rle ∈ rle.map Prod.fst := by
  rcases foldl_max_attained Prod.fst rle 0 with h0 | ⟨x, hx, hfx⟩
  · rcases rle with _ | ⟨r, rs⟩
    · exact absurd rfl h
    · have h1 : r.1 ≤ maxFst (r :: rs) := le_maxFst (List.mem_cons_self r rs)
      have h2 : maxFst (r :: rs) = 0 := h0
      have : r.1 = maxFst (r :: rs) := by omega
      rw [← this]
      exact List.mem_map_of_mem Prod.fst (List.mem_cons_self r rs)
  · rw [show maxFst rle = Prod.fst x from hfx]
    exact List.mem_map_of_mem Prod.fst hx

lemma maxSnd_mem {rle : List (Nat × Nat)} (h : rle ≠ []) :
    maxSnd rle ∈ rle.map Prod.snd := by
  rcases foldl_max_attained Prod.snd rle 0 with h0 | ⟨x, hx, hfx⟩
  · rcases rle with _ | ⟨r, rs⟩
    · exact absurd rfl h
    · have h1 : r.2 ≤ maxSnd (r :: rs) := le_maxSnd (List.mem_cons_self r rs)
      have h2 : maxSnd (r :: rs) = 0 := h0
      have : r.2 = maxSnd (r :: rs) := by omega
      rw [← this]
      exact List.mem_map_of_mem Prod.snd (List.mem_cons_self r rs)
  · rw [show maxSnd rle = Prod.snd x from hfx]
    exact List.mem_map_of_mem Prod.snd hx

/-! ### Master specification of `encode_ben_vec_from_rle` -/

/-- The value of the `n_bytes` field exactly as the source computes it in
`u32` arithmetic (lines 179–184). -/
def nBytesField (rle : List (Nat × Nat)) : Nat :=
  let assign_bits := max (bitsNeeded (maxFst rle)) 1 + bitsNeeded (maxSnd rle)
  let tot := assign_bits * (rle.length % 2 ^ 32) % 2 ^ 32
  if tot % 8 = 0 then tot / 8 else tot / 8 + 1

lemma concatMap_runBits_length (vb lb : Nat) (runs : List (Nat × Nat)) :
    (concatMap (runBits vb lb) runs).length = runs.length * (vb + lb) := by
  induction runs with
  | nil => simp [concatMap]
  | cons r rs ih =>
    simp [concatMap, runBits, length_toBits, ih]
    ring

lemma foldl_packRun_nil (vb lb : Nat) (hvb : vb ≤ 16) (hlb : lb ≤ 16)
    (runs : List (Nat × Nat)) (hmem : ∀ r ∈ runs, r.1 < 2 ^ vb ∧ r.2 < 2 ^ lb) :
    runs.foldl (packRun vb lb) (0, 0, []) =
      (natOfBits (leftover (concatMap (runBits vb lb) runs)),
       (leftover (concatMap (runBits vb lb) runs)).length,
       fullBytes (concatMap (runBits vb lb) runs)) := by
  have h := foldl_packRun vb lb hvb hlb runs hmem [] (by simp) []
  simpa [natOfBits] using h

lemma encode_ben_vec_spec (rle : List (Nat × Nat)) (hne : rle ≠ [])
    (h16 : ∀ r ∈ rle, r.1 < 2 ^ 16 ∧ r.2 < 2 ^ 16) :
    encode_ben_vec_from_rle rle =
      some ([max (bitsNeeded (maxFst rle)) 1, bitsNeeded (maxSnd rle)] ++
        be32 (nBytesField rle) ++
        packBitsMSB (concatMap
          (runBits (max (bitsNeeded (maxFst rle)) 1) (bitsNeeded (maxSnd rle)))
          rle)) := by
  have hvb16 : max (bitsNeeded (maxFst rle)) 1 ≤ 16 := by
    have hm : maxFst rle < 2 ^ 16 :=
      maxFst_lt (by omega) (fun r hr => (h16 r hr).1)
    have := (bitsNeeded_le_iff (maxFst rle) 16).mpr hm
    omega
  have hlb16 : bitsNeeded (maxSnd rle) ≤ 16 := by
    have hm : maxSnd rle < 2 ^ 16 :=
      maxSnd_lt (by omega) (fun r hr => (h16 r hr).2)
    exact (bitsNeeded_le_iff (maxSnd rle) 16).mpr hm
  have hmem : ∀ r ∈ rle,
      r.1 < 2 ^ (max (bitsNeeded (maxFst rle)) 1) ∧
      r.2 < 2 ^ bitsNeeded (maxSnd rle) := by
    intro r hr
    constructor
    · have h1 : r.1 ≤ maxFst rle := le_maxFst hr
      have h2 : maxFst rle < 2 ^ bitsNeeded (maxFst rle) :=
        lt_two_pow_bitsNeeded (maxFst rle)
      have h3 : (2 : Nat) ^ bitsNeeded (maxFst rle) ≤
          2 ^ (max (bitsNeeded (maxFst rle)) 1) :=
        Nat.pow_le_pow_right (by omega) (Nat.le_max_left _ _)
      omega
    · have h1 : r.2 ≤ maxSnd rle := le_maxSnd hr
      have h2 : maxSnd rle < 2 ^ bitsNeeded (maxSnd rle) :=
        lt_two_pow_bitsNeeded (maxSnd rle)
      omega
  rcases rle with _ | ⟨r, rs⟩
  · exact absurd rfl hne
  rw [encode_ben_vec_from_rle]
  rw [foldl_packRun_nil _ _ hvb16 hlb16 _ hmem]
  rw [packBitsMSB_eq]
  set B := concatMap
    (runBits (max (bitsNeeded (maxFst (r :: rs))) 1) (bitsNeeded (maxSnd (r :: rs))))
    (r :: rs) with hB
  by_cases hz : (leftover B).length = 0
  · have hnil : leftover B = [] := List.length_eq_zero.mp hz
    simp only [hnil, List.length_nil]
    simp [nBytesField]
    omega
  · have hnnil : leftover B ≠ [] := by
      intro hc
      rw [hc] at hz
      simp at hz
    have hpos : 0 < (leftover B).length := Nat.pos_of_ne_zero hz
    simp only [if_pos hpos, if_neg hnnil]
    have hlt8 := leftover_length_lt B
    have hbyte : (natOfBits (leftover B) <<< (8 - (leftover B).length)) % 256 =
        natOfBits (leftover B ++
          List.replicate (8 - (leftover B).length) false) := by
      rw [Nat.shiftLeft_eq, natOfBits_append, natOfBits_replicate_false,
        List.length_replicate, Nat.add_zero]
      have hlo := natOfBits_lt (leftover B)
      have hmul : natOfBits (leftover B) * 2 ^ (8 - (leftover B).length) <
          2 ^ (leftover B).length * 2 ^ (8 - (leftover B).length) :=
        (Nat.mul_lt_mul_right (Nat.pow_pos (by omega))).mpr hlo
      rw [← Nat.pow_add] at hmul
      have h8 : (leftover B).length + (8 - (leftover B).length) = 8 := by omega
      rw [h8] at hmul
      have h256 : (2 : Nat) ^ 8 = 256 := by norm_num
      exact Nat.mod_eq_of_lt (by omega)
    rw [hbyte]
    simp [nBytesField]
    omega

lemma nBytesField_eq_ceil (rle : List (Nat × Nat))
    (hsz : (max (bitsNeeded (maxFst rle)) 1 + bitsNeeded (maxSnd rle)) *
      rle.length < 2 ^ 32) :
    nBytesField rle =
      (rle.length * (max (bitsNeeded (maxFst rle)) 1 + bitsNeeded (maxSnd rle)) + 7) / 8 := by
  have hvb1 : 1 ≤ max (bitsNeeded (maxFst rle)) 1 := Nat.le_max_right _ _
  have hlen : rle.length < 2 ^ 32 := by
    have h := Nat.le_mul_of_pos_left rle.length
      (show 0 < max (bitsNeeded (maxFst rle)) 1 + bitsNeeded (maxSnd rle) by omega)
    omega
  simp only [nBytesField]
  rw [Nat.mod_eq_of_lt hlen, Nat.mod_eq_of_lt hsz,
    Nat.mul_comm rle.length (max (bitsNeeded (maxFst rle)) 1 + bitsNeeded (maxSnd rle))]
  split <;> omega

/-! ### Claim theorems -/

/-- **C1.** For every non-empty run list (of `u16` pairs), the payload bytes
emitted by `encode_ben_vec_from_rle` after its 6-byte header are the
concatenation, run by run in order, of each run's value in `valueBits` bits
(MSB first) immediately followed by its length in `lengthBits` bits, with no
padding between runs, packed MSB-first into bytes; a partial final byte keeps
the leftover bits in its high positions with zeros below (this is what
`packBitsMSB` computes). -/
theorem ben_payload_is_packed_bitstream (rle : List (Nat × Nat)) (hne : rle ≠ [])
    (h16 : ∀ r ∈ rle, r.1 < 2 ^ 16 ∧ r.2 < 2 ^ 16) :
    ∃ out, encode_ben_vec_from_rle rle = some out ∧
      out.drop 6 = packBitsMSB (concatMap
        (runBits (max (bitsNeeded (maxFst rle)) 1) (bitsNeeded (maxSnd rle)))
        rle) := by
  refine ⟨_, encode_ben_vec_spec rle hne h16, ?_⟩
  simp [be32]

/-- Witness for C1 at the documented fixture `[(1,3),(2,3)]`. -/
theorem ben_payload_is_packed_bitstream_witness :
    ∃ out, encode_ben_vec_from_rle [(1, 3), (2, 3)] = some out ∧
      out.drop 6 = packBitsMSB (concatMap
        (runBits (max (bitsNeeded (maxFst [(1, 3), (2, 3)])) 1)
          (bitsNeeded (maxSnd [(1, 3), (2, 3)])))
        [(1, 3), (2, 3)]) :=
  ben_payload_is_packed_bitstream [(1, 3), (2, 3)] (by decide) (by decide)

/-- **C3.** Golden fixture: `encode_ben_vec_from_rle [(1,3),(2,3)]` returns
exactly the seven bytes `[2,2,0,0,0,1,0b01111011]`, and `jsonl_encode_ben`
on the two-line input with assignments `[1,1,1,2,2,2]` then `[1,1,2,2,1,2]`
writes exactly the 17 ASCII bytes of `"STANDARD BEN FILE"` followed by
`[2,2,0,0,0,1,123]` followed by `[2,2,0,0,0,2,106,89]`. -/
theorem golden_fixture_ben :
    encode_ben_vec_from_rle [(1, 3), (2, 3)] = some [2, 2, 0, 0, 0, 1, 123] ∧
    jsonl_encode_ben [some [1, 1, 1, 2, 2, 2], some [1, 1, 2, 2, 1, 2]] =
      some ([83, 84, 65, 78, 68, 65, 82, 68, 32, 66, 69, 78, 32, 70, 73, 76, 69]
        ++ [2, 2, 0, 0, 0, 1, 123] ++ [2, 2, 0, 0, 0, 2, 106, 89]) := by
  constructor
  · decide
  · decide

/-- **C4.** For every non-empty run list of `u16` pairs, the first header byte
equals `max 1 (bitsNeeded (maximum run value))` and the second equals
`bitsNeeded (maximum run length)` with no forced minimum of 1; each is the
minimum width representing the respective per-block maximum (the maxima are
attained in the list, the widths represent them, and any representing width
is at least as large). -/
theorem ben_header_width_bytes (rle : List (Nat × Nat)) (hne : rle ≠ [])
    (h16 : ∀ r ∈ rle, r.1 < 2 ^ 16 ∧ r.2 < 2 ^ 16) :
    ∃ out, encode_ben_vec_from_rle rle = some out ∧
      out.take 2 = [max (bitsNeeded (maxFst rle)) 1, bitsNeeded (maxSnd rle)] ∧
      (∀ r ∈ rle, r.1 ≤ maxFst rle) ∧ maxFst rle ∈ rle.map Prod.fst ∧
      (∀ r ∈ rle, r.2 ≤ maxSnd rle) ∧ maxSnd rle ∈ rle.map Prod.snd ∧
      maxFst rle < 2 ^ (max (bitsNeeded (maxFst rle)) 1) ∧
      (∀ w, 1 ≤ w → maxFst rle < 2 ^ w → max (bitsNeeded (maxFst rle)) 1 ≤ w) ∧
      maxSnd rle < 2 ^ bitsNeeded (maxSnd rle) ∧
      (∀ w, maxSnd rle < 2 ^ w → bitsNeeded (maxSnd rle) ≤ w) := by
  refine ⟨_, encode_ben_vec_spec rle hne h16, ?_, ?_, ?_, ?_, ?_, ?_, ?_, ?_, ?_⟩
  · simp
  · exact fun r hr => le_maxFst hr
  · exact maxFst_mem hne
  · exact fun r hr => le_maxSnd hr
  · exact maxSnd_mem hne
  · have h2 := lt_two_pow_bitsNeeded (maxFst rle)
    have h3 : (2 : Nat) ^ bitsNeeded (maxFst rle) ≤
        2 ^ (max (bitsNeeded (maxFst rle)) 1) :=
      Nat.pow_le_pow_right (by omega) (Nat.le_max_left _ _)
    omega
  · intro w hw hlt
    have := (bitsNeeded_le_iff (maxFst rle) w).mpr hlt
    omega
  · exact lt_two_pow_bitsNeeded _
  · intro w hlt
    exact (bitsNeeded_le_iff _ w).mpr hlt

/-- Witness for C4 at `[(0,1)]` (label `0` still gets one value bit). -/
theorem ben_header_width_bytes_witness :
    ∃ out, encode_ben_vec_from_rle [((0 : Nat), (1 : Nat))] = some out ∧
      out.take 2 = [max (bitsNeeded (maxFst [(0, 1)])) 1, bitsNeeded (maxSnd [(0, 1)])] ∧
      (∀ r ∈ ([(0, 1)] : List (Nat × Nat)), r.1 ≤ maxFst [(0, 1)]) ∧
      maxFst [(0, 1)] ∈ ([(0, 1)] : List (Nat × Nat)).map Prod.fst ∧
      (∀ r ∈ ([(0, 1)] : List (Nat × Nat)), r.2 ≤ maxSnd [(0, 1)]) ∧
      maxSnd [(0, 1)] ∈ ([(0, 1)] : List (Nat × Nat)).map Prod.snd ∧
      maxFst [(0, 1)] < 2 ^ (max (bitsNeeded (maxFst [(0, 1)])) 1) ∧
      (∀ w, 1 ≤ w → maxFst [(0, 1)] < 2 ^ w → max (bitsNeeded (maxFst [(0, 1)])) 1 ≤ w) ∧
      maxSnd [(0, 1)] < 2 ^ bitsNeeded (maxSnd [(0, 1)]) ∧
      (∀ w, maxSnd [(0, 1)] < 2 ^ w → bitsNeeded (maxSnd [(0, 1)]) ≤ w) :=
  ben_header_width_bytes [(0, 1)] (by decide) (by decide)

/-- **C5.** For every non-empty run list of `u16` pairs whose total bit count
fits in a `u32`, the 32-bit big-endian `byteLength` field equals
`ceil (n_runs * (valueBits + lengthBits) / 8)`, and the number of payload
bytes actually emitted after the 6-byte header equals that same value. -/
theorem ben_header_byte_length (rle : List (Nat × Nat)) (hne : rle ≠ [])
    (h16 : ∀ r ∈ rle, r.1 < 2 ^ 16 ∧ r.2 < 2 ^ 16)
    (hsz : (max (bitsNeeded (maxFst rle)) 1 + bitsNeeded (maxSnd rle)) *
      rle.length < 2 ^ 32) :
    ∃ out, encode_ben_vec_from_rle rle = some out ∧
      (out.drop 2).take 4 = be32
        ((rle.length * (max (bitsNeeded (maxFst rle)) 1 + bitsNeeded (maxSnd rle)) + 7) / 8) ∧
      (out.drop 6).length =
        (rle.length * (max (bitsNeeded (maxFst rle)) 1 + bitsNeeded (maxSnd rle)) + 7) / 8 := by
  refine ⟨_, encode_ben_vec_spec rle hne h16, ?_, ?_⟩
  · rw [← nBytesField_eq_ceil rle hsz]
    simp [be32]
  · have hdrop : (([max (bitsNeeded (maxFst rle)) 1, bitsNeeded (maxSnd rle)] ++
        be32 (nBytesField rle) ++
        packBitsMSB (concatMap
          (runBits (max (bitsNeeded (maxFst rle)) 1) (bitsNeeded (maxSnd rle)))
          rle)).drop 6) =
        packBitsMSB (concatMap
          (runBits (max (bitsNeeded (maxFst rle)) 1) (bitsNeeded (maxSnd rle)))
          rle) := by
      simp [be32]
    rw [hdrop, packBitsMSB_length, concatMap_runBits_length]

/-- Witness for C5 at the fixture `[(1,3),(2,3)]`. -/
theorem ben_header_byte_length_witness :
    ∃ out, encode_ben_vec_from_rle [(1, 3), (2, 3)] = some out ∧
      (out.drop 2).take 4 = be32
        ((([(1, 3), (2, 3)] : List (Nat × Nat)).length *
          (max (bitsNeeded (maxFst [(1, 3), (2, 3)])) 1 +
            bitsNeeded (maxSnd [(1, 3), (2, 3)])) + 7) / 8) ∧
      (out.drop 6).length =
        (([(1, 3), (2, 3)] : List (Nat × Nat)).length *
          (max (bitsNeeded (maxFst [(1, 3), (2, 3)])) 1 +
            bitsNeeded (maxSnd [(1, 3), (2, 3)])) + 7) / 8 :=
  ben_header_byte_length [(1, 3), (2, 3)] (by decide) (by decide) (by decide)

/-- **C8.** `encode_ben_vec_from_rle` requires a non-empty run list: on an
empty run list the `max_by_key(...).unwrap()` fails (modelled by `none`),
and on every non-empty run list the function totally produces an output
(`isSome`), i.e. neither `unwrap` can fail. -/
theorem encode_ben_vec_from_rle_total_iff (rle : List (Nat × Nat)) :
    (encode_ben_vec_from_rle rle).isSome ↔ rle ≠ [] := by
  rcases rle with _ | ⟨r, rs⟩
  · simp [encode_ben_vec_from_rle]
  · simp [encode_ben_vec_from_rle]

/-- **C9.** `encode_ben_32_line` on an empty `assignment` array does not
fail and returns exactly the sentinel word `[0,0,0,0]` (an empty Ben32Block,
zero records), while on the BEN path the same empty assignment makes
encoding fail (`encode_ben_vec_from_rle` of the empty run list is `none`). -/
theorem ben32_empty_assignment_sentinel_only :
    encode_ben_32_line [] = [0, 0, 0, 0] ∧
    encode_ben_vec_from_rle (assign_to_rle []) = none := by
  constructor
  · rfl
  · rfl

/-- **C2 (counterexample).** A JSONL line that parses as valid JSON but lacks
an `assignment` array does not abort the run: `jsonl_encode_ben` succeeds and
still encodes the following sample, contradicting the claim that such a line
is a fatal `ParseError` aborting the whole encoding run. -/
theorem missing_assignment_not_fatal_cex :
    jsonl_encode_ben [none, some [1, 1, 1, 2, 2, 2]] =
      some ([83, 84, 65, 78, 68, 65, 82, 68, 32, 66, 69, 78, 32, 70, 73, 76, 69]
        ++ [2, 2, 0, 0, 0, 1, 123]) := by
  decide

/-- **C2 (amended).** A JSONL line that parses as valid JSON but lacks an
`assignment` array field is silently skipped by `jsonl_encode_ben` (the
`if let Some` at line 283 has no else branch): the output is exactly the
output for the input with that line removed, and encoding continues with the
subsequent samples. -/
theorem jsonl_encode_ben_skips_missing_assignment
    (rest : List (Option (List Nat))) :
    jsonl_encode_ben (none :: rest) = jsonl_encode_ben rest := rfl

lemma encodeBen32Loop_map_mod (rest : List Nat) :
    ∀ p c, encodeBen32Loop (rest.map (fun x => x % 2 ^ 16)) p c =
      encodeBen32Loop rest p c := by
  induction rest with
  | nil => intro p c; rfl
  | cons a rest ih =>
    intro p c
    simp only [List.map_cons, encodeBen32Loop]
    rw [Nat.mod_mod_of_dvd a dvd_rfl]
    by_cases h : a % 2 ^ 16 = p
    · rw [if_pos h, if_pos h, ih]
    · rw [if_neg h, if_neg h, ih]

/-- **C10.** Assignment labels are narrowed with an unchecked `as u64 as u16`
cast in both encoding paths, so the value actually encoded for a label `x` is
`x mod 65536`: both paths produce identical output on `xs` and on
`xs.map (· % 2 ^ 16)`, and, concretely, the out-of-range label `65537` is
silently encoded exactly like label `1` instead of being rejected. -/
theorem labels_reduced_mod_u16 (xs : List Nat) :
    encode_ben_32_line xs = encode_ben_32_line (xs.map (fun x => x % 2 ^ 16)) ∧
    jsonl_encode_ben [some xs] =
      jsonl_encode_ben [some (xs.map (fun x => x % 2 ^ 16))] ∧
    encode_ben_32_line [65537] = encode_ben_32_line [1] := by
  refine ⟨?_, ?_, by decide⟩
  · rcases xs with _ | ⟨a, rest⟩
    · rfl
    · simp only [List.map_cons, encode_ben_32_line]
      rw [Nat.mod_mod_of_dvd a dvd_rfl, encodeBen32Loop_map_mod]
  · have hmm : (xs.map (fun x => x % 2 ^ 16)).map (fun x => x % 2 ^ 16) =
        xs.map (fun x => x % 2 ^ 16) := by
      rw [List.map_map]
      apply List.map_congr_left
      intro a ha
      exact Nat.mod_mod_of_dvd a dvd_rfl
    simp only [jsonl_encode_ben, benLineBlocks, hmm]

/-- **C7.** `encode_ben_to_xben` fails with an `InvalidData` error (the
spec's `FormatError`) whenever the first 17 bytes of its input differ from
`"STANDARD BEN FILE"`, and in that case no output is written (the function
returns before the output write, modelled by the `Except.error` result);
when the header matches, it feeds the compressor a fresh
`"STANDARD BEN FILE"` header followed by the ben32 transcoding of the
remaining BEN content (the transcoder `ben_to_ben32_lines` lives in the
`translate` module, which is not among the provided sources, and is
therefore universally quantified). -/
theorem ben_to_xben_magic_check
    (tr : List Nat → Except IoErrorKind (List Nat)) (input : List Nat)
    (hlen : 17 ≤ input.length) :
    (input.take 17 ≠ standardBenFile →
      encode_ben_to_xben tr input = Except.error IoErrorKind.invalidData) ∧
    (input.take 17 = standardBenFile →
      ∀ b, tr (input.drop 17) = Except.ok b →
        encode_ben_to_xben tr input = Except.ok (standardBenFile ++ b)) := by
  constructor
  · intro hne
    rw [encode_ben_to_xben, if_neg (by omega), if_pos hne]
  · intro heq b hb
    rw [encode_ben_to_xben, if_neg (by omega), if_neg (by simp [heq]), hb]

/-- Witness for C7: a wrong 17-byte header is rejected with `InvalidData`, and
a file that is exactly the magic header feeds the compressor the fresh header
plus the (identity) transcoding of the empty remainder. -/
theorem ben_to_xben_magic_check_witness :
    encode_ben_to_xben Except.ok (List.replicate 17 0) =
      Except.error IoErrorKind.invalidData ∧
    encode_ben_to_xben Except.ok standardBenFile =
      Except.ok (standardBenFile ++ []) := by
  constructor
  · exact (ben_to_xben_magic_check Except.ok (List.replicate 17 0)
      (by decide)).1 (by decide)
  · exact (ben_to_xben_magic_check Except.ok standardBenFile
      (by decide)).2 (by decide) [] rfl

/-! ### C6: ben32 records, one per maximal run, with an unambiguous sentinel -/

lemma rleLoop_head (rest : List Nat) :
    ∀ v c, ∃ c' t, c ≤ c' ∧ rleLoop rest v c = (v, c') :: t := by
  induction rest with
  | nil => intro v c; exact ⟨c, [], Nat.le_refl c, rfl⟩
  | cons a rest ih =>
    intro v c
    by_cases h : a = v
    · obtain ⟨c', t, hc, ht⟩ := ih v (c + 1)
      refine ⟨c', t, by omega, ?_⟩
      rw [rleLoop, if_pos h, ht]
    · exact ⟨c, rleLoop rest a 1, Nat.le_refl c, by rw [rleLoop, if_neg h]⟩

lemma rleLoop_snd_pos (rest : List Nat) :
    ∀ v c, 1 ≤ c → ∀ r ∈ rleLoop rest v c, 1 ≤ r.2 := by
  induction rest with
  | nil =>
    intro v c hc r hr
    rw [rleLoop, List.mem_singleton] at hr
    rw [hr]
    exact hc
  | cons a rest ih =>
    intro v c hc r hr
    rw [rleLoop] at hr
    by_cases h : a = v
    · rw [if_pos h] at hr
      exact ih v (c + 1) (by omega) r hr
    · rw [if_neg h] at hr
      rcases List.mem_cons.mp hr with rfl | hr2
      · exact hc
      · exact ih a 1 (Nat.le_refl 1) r hr2

lemma rleLoop_fst_mem (rest : List Nat) :
    ∀ v c, ∀ r ∈ rleLoop rest v c, r.1 = v ∨ r.1 ∈ rest := by
  induction rest with
  | nil =>
    intro v c r hr
    rw [rleLoop, List.mem_singleton] at hr
    left
    rw [hr]
  | cons a rest ih =>
    intro v c r hr
    rw [rleLoop] at hr
    by_cases h : a = v
    · rw [if_pos h] at hr
      rcases ih v (c + 1) r hr with h1 | h1
      · left; exact h1
      · right; exact List.mem_cons_of_mem a h1
    · rw [if_neg h] at hr
      rcases List.mem_cons.mp hr with rfl | hr2
      · left; rfl
      · rcases ih a 1 r hr2 with h1 | h1
        · right; rw [h1]; exact List.mem_cons_self a rest
        · right; exact List.mem_cons_of_mem a h1

lemma ben32Word_ne_sentinel {v c : Nat} (hv : v < 2 ^ 16) (hc1 : 1 ≤ c)
    (hc : c < 2 ^ 16) : ben32Word v c ≠ [0, 0, 0, 0] := by
  have hlt : v * 2 ^ 16 + c < 2 ^ 32 := by
    have h1 : v * 2 ^ 16 ≤ (2 ^ 16 - 1) * 2 ^ 16 :=
      Nat.mul_le_mul_right (2 ^ 16) (by omega)
    have h2 : ((2 : Nat) ^ 16 - 1) * 2 ^ 16 = 2 ^ 32 - 2 ^ 16 := by norm_num
    omega
  have hval : ((v <<< 16) ||| c) % 2 ^ 32 = v * 2 ^ 16 + c := by
    rw [shl_lor_eq_add v c 16 hc]
    exact Nat.mod_eq_of_lt hlt
  rw [ben32Word, hval, be32]
  intro hcontr
  have hlast : (v * 2 ^ 16 + c) % 256 = 0 := by
    have := congrArg (fun l => l.getLast? ) hcontr
    simpa using this
  have hthird : (v * 2 ^ 16 + c) / 2 ^ 8 % 256 = 0 := by
    have := congrArg (fun l => l.get? 2) hcontr
    simpa using this
  have hshape : v * 2 ^ 16 + c = 256 * (v * 256) + c := by ring
  have hc256 : c % 256 = 0 := by
    rw [hshape, Nat.mul_add_mod] at hlast
    exact hlast
  have h28 : (2 : Nat) ^ 8 = 256 := by norm_num
  have hdiv : (v * 2 ^ 16 + c) / 2 ^ 8 = v * 256 + c / 256 := by
    rw [h28, hshape, Nat.mul_add_div (by omega)]
  have hcdiv : c / 256 = 0 := by
    rw [hdiv, Nat.mul_comm v 256, Nat.mul_add_mod] at hthird
    have hlt2 : c / 256 < 256 := by omega
    rw [Nat.mod_eq_of_lt hlt2] at hthird
    exact hthird
  omega

lemma encodeBen32Loop_eq_rleLoop (rest : List Nat) :
    ∀ prev c, 1 ≤ c → (∀ a ∈ rest, a < 2 ^ 16) →
    (∀ r ∈ rleLoop rest prev c, r.2 < 2 ^ 16) →
    encodeBen32Loop rest prev c =
      concatMap (fun r => ben32Word r.1 r.2) (rleLoop rest prev c) ++
        [0, 0, 0, 0] := by
  induction rest with
  | nil =>
    intro prev c hc hv hl
    rw [encodeBen32Loop, rleLoop, if_pos (by omega : 0 < c)]
    simp [concatMap]
  | cons a rest ih =>
    intro prev c hc hv hl
    have ha : a % 2 ^ 16 = a :=
      Nat.mod_eq_of_lt (hv a (List.mem_cons_self a rest))
    rw [encodeBen32Loop, rleLoop] at *
    simp only [ha]
    by_cases h : a = prev
    · rw [if_pos h] at hl
      obtain ⟨c', t, hcc, hht⟩ := rleLoop_head rest prev (c + 1)
      have hc1lt : c + 1 < 2 ^ 16 := by
        have hmem : (prev, c') ∈ rleLoop rest prev (c + 1) := by
          rw [hht]
          exact List.mem_cons_self _ _
        have := hl (prev, c') hmem
        simp at this
        omega
      rw [if_pos h, if_pos h, Nat.mod_eq_of_lt hc1lt]
      exact ih prev (c + 1) (by omega)
        (fun x hx => hv x (List.mem_cons_of_mem a hx)) hl
    · rw [if_neg h] at hl
      rw [if_neg h, if_neg h, concatMap, List.append_assoc]
      congr 1
      exact ih a 1 (Nat.le_refl 1)
        (fun x hx => hv x (List.mem_cons_of_mem a hx))
        (fun r hr => hl r (List.mem_cons_of_mem _ hr))

/-- **C6.** For every non-empty assignment vector with labels `< 2 ^ 16`
whose maximal runs all have length `< 2 ^ 16`, `encode_ben_32_line` emits
exactly one 32-bit big-endian word `(value << 16) | length` per maximal run,
in left-to-right run order, followed by exactly one terminating word
`0x00000000`; and every non-terminator word is nonzero (its length field is
at least 1), so the sentinel is unambiguous. -/
theorem ben32_line_words_and_sentinel (xs : List Nat) (hne : xs ≠ [])
    (hv : ∀ a ∈ xs, a < 2 ^ 16)
    (hlen : ∀ r ∈ assign_to_rle xs, r.2 < 2 ^ 16) :
    encode_ben_32_line xs =
      concatMap (fun r => ben32Word r.1 r.2) (assign_to_rle xs) ++
        [0, 0, 0, 0] ∧
    ∀ r ∈ assign_to_rle xs, ben32Word r.1 r.2 ≠ [0, 0, 0, 0] := by
  rcases xs with _ | ⟨a, rest⟩
  · exact absurd rfl hne
  have ha : a < 2 ^ 16 := hv a (List.mem_cons_self a rest)
  have hrle : assign_to_rle (a :: rest) = rleLoop rest a 1 := rfl
  constructor
  · rw [encode_ben_32_line, Nat.mod_eq_of_lt ha, hrle]
    exact encodeBen32Loop_eq_rleLoop rest a 1 (Nat.le_refl 1)
      (fun x hx => hv x (List.mem_cons_of_mem a hx)) (hrle ▸ hlen)
  · intro r hr
    rw [hrle] at hr
    have h1 : r.1 < 2 ^ 16 := by
      rcases rleLoop_fst_mem rest a 1 r hr with h | h
      · rw [h]; exact ha
      · exact hv r.1 (List.mem_cons_of_mem a h)
    have h2 : 1 ≤ r.2 := rleLoop_snd_pos rest a 1 (Nat.le_refl 1) r hr
    have h3 : r.2 < 2 ^ 16 := hlen r (hrle ▸ hr)
    exact ben32Word_ne_sentinel h1 h2 h3

/-- Witness for C6 at the assignment vector `[1, 1, 2]`. -/
theorem ben32_line_words_and_sentinel_witness :
    encode_ben_32_line [1, 1, 2] =
      concatMap (fun r => ben32Word r.1 r.2) (assign_to_rle [1, 1, 2]) ++
        [0, 0, 0, 0] ∧
    ∀ r ∈ assign_to_rle [1, 1, 2], ben32Word r.1 r.2 ≠ [0, 0, 0, 0] :=
  ben32_line_words_and_sentinel [1, 1, 2] (by decide) (by decide) (by decide)

end BinaryEnsemble
